import Mathlib

/-!
Verification development for the arbor single-cell demo
(`src/python/example/single_cell_swc.py`) and the single-cell
cable-simulation engine it exercises, as described by the repository's
specification.  The engine itself (morphology store, resolver, cable cell,
discretizer, event subsystem, time-stepper, sampler) is not part of the
source tree, so those components are modelled from the specification; the
demo script's own output logic is embedded directly from the source.
-/

namespace Script

/-- Abstract output lines of the demo script's spike-printing block:
either the single line `no spikes`, or a count header followed by one
formatted line per spike time. -/
inductive OutputLine where
  | noSpikes : OutputLine
  | spikeCount : ℕ → OutputLine
  | spikeTime : ℚ → OutputLine
deriving DecidableEq

/-- Embedding of the script's spike-printing block
(`if len(m.spikes)>0: print count and one line per spike; else: print
'no spikes'`), lines abstracted from their string rendering. -/
def printSpikes (spikes : List ℚ) : List OutputLine :=
  if spikes.length > 0 then
    OutputLine.spikeCount spikes.length :: spikes.map OutputLine.spikeTime
  else [OutputLine.noSpikes]

/-- C10: the demo script prints exactly the line `no spikes` iff the spike
list is empty; otherwise it prints the spike count followed by one line per
recorded spike time, in list order, and the `no spikes` line never appears
in that branch. -/
theorem printSpikes_branches (spikes : List ℚ) :
    (printSpikes spikes = [OutputLine.noSpikes] ↔ spikes = []) ∧
    (spikes ≠ [] →
      printSpikes spikes =
        OutputLine.spikeCount spikes.length :: spikes.map OutputLine.spikeTime ∧
      OutputLine.noSpikes ∉ printSpikes spikes) := by
  constructor
  · constructor
    · intro h
      by_contra hne
      have hlen : spikes.length > 0 := List.length_pos.mpr hne
      simp only [printSpikes, if_pos hlen] at h
      exact (OutputLine.noConfusion (List.head_eq_of_cons_eq h))
    · intro h
      subst h
      simp [printSpikes]
  · intro hne
    have hlen : spikes.length > 0 := List.length_pos.mpr hne
    refine ⟨by simp [printSpikes, if_pos hlen], ?_⟩
    simp only [printSpikes, if_pos hlen, List.mem_cons, List.mem_map]
    rintro (h | ⟨t, _, h⟩) <;> exact OutputLine.noConfusion h

/-- Witness for C10 at the concrete spike list `[5]`. -/
theorem printSpikes_branches_witness :
    printSpikes [5] = [OutputLine.spikeCount 1, OutputLine.spikeTime 5] ∧
    OutputLine.noSpikes ∉ printSpikes [5] := by
  have h := (printSpikes_branches [5]).2 (by simp)
  exact ⟨by rw [h.1]; rfl, h.2⟩

end Script

namespace Detector

/-- Modelled from the spec: state of a spike detector
(`arbor.spike_detector`, engine code not in the source tree) — an armed
flag plus the append-only log of registered spike times. -/
structure DState where
  armed : Bool
  spikes : List ℚ

/-- Modelled from the spec: one observation step of the edge-triggered
spike detector.  If the detector is armed and the voltage is at or above
the threshold, a spike is registered and the detector disarms; it re-arms
only when the voltage is strictly below the threshold. -/
def detectStep (θ : ℚ) (s : DState) (tv : ℚ × ℚ) : DState :=
  if s.armed ∧ θ ≤ tv.2 then ⟨false, s.spikes ++ [tv.1]⟩
  else if tv.2 < θ then ⟨true, s.spikes⟩
  else s

/-- Modelled from the spec: running the detector over a whole voltage
trajectory (list of (time, voltage) observations), initially armed. -/
def detect (θ : ℚ) (trace : List (ℚ × ℚ)) : List ℚ :=
  (trace.foldl (detectStep θ) ⟨true, []⟩).spikes

/-- Times of upward threshold crossings after the first observation:
a crossing happens at an observation whose voltage is at or above the
threshold while the previous voltage was strictly below it. -/
def upwardAux (θ prev : ℚ) : List (ℚ × ℚ) → List ℚ
  | [] => []
  | tv :: rest =>
      (if prev < θ ∧ θ ≤ tv.2 then [tv.1] else []) ++ upwardAux θ tv.2 rest

/-- Times of upward threshold crossings of a trajectory: the first
observation crosses iff it is at or above threshold; each later
observation crosses iff it is at or above threshold and its predecessor
was strictly below. -/
def upwardCrossings (θ : ℚ) : List (ℚ × ℚ) → List ℚ
  | [] => []
  | tv :: rest =>
      (if θ ≤ tv.2 then [tv.1] else []) ++ upwardAux θ tv.2 rest

lemma detectStep_norm (θ prev : ℚ) (acc : List ℚ) (tv : ℚ × ℚ) :
    detectStep θ ⟨decide (prev < θ), acc⟩ tv =
      ⟨decide (tv.2 < θ), acc ++ if prev < θ ∧ θ ≤ tv.2 then [tv.1] else []⟩ := by
  by_cases h1 : prev < θ <;> by_cases h2 : θ ≤ tv.2
  · have hnlt : ¬ tv.2 < θ := not_lt.mpr h2
    simp [detectStep, h1, h2, hnlt]
  · have hlt : tv.2 < θ := lt_of_not_le h2
    simp [detectStep, h1, h2, hlt]
  · have hnlt : ¬ tv.2 < θ := not_lt.mpr h2
    simp [detectStep, h1, h2, hnlt]
  · have hlt : tv.2 < θ := lt_of_not_le h2
    simp [detectStep, h1, h2, hlt]

lemma foldl_detectStep_eq (θ : ℚ) (tr : List (ℚ × ℚ)) :
    ∀ (prev : ℚ) (acc : List ℚ),
      (tr.foldl (detectStep θ) ⟨decide (prev < θ), acc⟩).spikes =
        acc ++ upwardAux θ prev tr := by
  induction tr with
  | nil => intro prev acc; simp [upwardAux]
  | cons tv rest ih =>
      intro prev acc
      rw [List.foldl_cons, detectStep_norm, ih tv.2, upwardAux,
        List.append_assoc]

/-- C2: spike detection is edge-triggered — the detector's spike log over
any voltage trajectory is exactly the list of upward-crossing times: one
spike per upward crossing of the threshold, never two spikes within a
single uninterrupted excursion at or above threshold, and re-arming only
after the voltage returns strictly below the threshold. -/
theorem detect_eq_upwardCrossings (θ : ℚ) (trace : List (ℚ × ℚ)) :
    detect θ trace = upwardCrossings θ trace := by
  cases trace with
  | nil => rfl
  | cons tv rest =>
      have harm : (true : Bool) = decide (θ - 1 < θ) := by
        simp
      unfold detect upwardCrossings
      rw [List.foldl_cons]
      have hstep : detectStep θ ⟨true, []⟩ tv =
          ⟨decide (tv.2 < θ), [] ++ if θ - 1 < θ ∧ θ ≤ tv.2 then [tv.1] else []⟩ := by
        rw [harm]; exact detectStep_norm θ (θ - 1) [] tv
      rw [hstep, foldl_detectStep_eq θ rest tv.2]
      have hcond : (θ - 1 < θ ∧ θ ≤ tv.2) ↔ θ ≤ tv.2 := by
        constructor
        · exact fun h => h.2
        · exact fun h => ⟨by linarith, h⟩
      simp only [List.nil_append, hcond]

end Detector

namespace PaintMap

/-- Modelled from the spec: one `paint(region, value)` call on the
cable-cell builder, for a single property name.  A region is represented
by its characteristic function on morphological points. -/
structure PaintCall (P V : Type) where
  region : P → Bool
  value : V

/-- Modelled from the spec: applying one paint call on top of an
accumulated property map — the new call sets its value on its region and
leaves every point outside its region unchanged. -/
def applyPaint {P V : Type} (acc : P → Option V) (q : PaintCall P V) :
    P → Option V :=
  fun p => if q.region p then some q.value else acc p

/-- Modelled from the spec: the finalized property map of a sequence of
paint calls for one property name, earliest call first. -/
def finalize {P V : Type} (ps : List (PaintCall P V)) : P → Option V :=
  ps.foldl applyPaint (fun _ => none)

lemma foldl_applyPaint_eq {P V : Type} (ps : List (PaintCall P V)) :
    ∀ (init : P → Option V) (p : P),
      ps.foldl applyPaint init p =
        match ps.reverse.find? (fun q => q.region p) with
        | some q => some q.value
        | none => init p := by
  induction ps with
  | nil => intro init p; rfl
  | cons q rest ih =>
      intro init p
      rw [List.foldl_cons, ih]
      rw [List.reverse_cons, List.find?_append]
      cases h : rest.reverse.find? (fun c => c.region p) with
      | some r => simp [h]
      | none =>
          simp only [h, Option.none_orElse]
          by_cases hq : q.region p <;> simp [applyPaint, hq]

/-- C4: paint override semantics — the finalized cell assigns to each
point the value of the last paint call whose region covers that point;
appending a later call overrides earlier calls exactly on the points its
region covers, while points outside it keep their earlier value. -/
theorem paint_lastWriteWins {P V : Type} (ps : List (PaintCall P V))
    (q : PaintCall P V) (p : P) :
    (finalize ps p =
      (ps.reverse.find? (fun c => c.region p)).map PaintCall.value) ∧
    (q.region p = true → finalize (ps ++ [q]) p = some q.value) ∧
    (q.region p = false → finalize (ps ++ [q]) p = finalize ps p) := by
  have hbase : ∀ (l : List (PaintCall P V)),
      finalize l p =
        match l.reverse.find? (fun c => c.region p) with
        | some c => some c.value
        | none => none :=
    fun l => foldl_applyPaint_eq l (fun _ => none) p
  refine ⟨?_, ?_, ?_⟩
  · rw [hbase ps]
    cases h : ps.reverse.find? (fun c => c.region p) <;> simp [h]
  · intro hq
    unfold finalize
    rw [List.foldl_append]
    simp [applyPaint, hq]
  · intro hq
    unfold finalize
    rw [List.foldl_append]
    simp [applyPaint, hq]

/-- Witness for C4: painting value 1 on points at most 5 and then value 2
on points at least 3 gives value 2 at the overlap point 4, while point 1,
outside the later region, keeps value 1. -/
theorem paint_lastWriteWins_witness :
    finalize [(⟨fun x => decide (x ≤ 5), 1⟩ : PaintCall ℕ ℕ),
        ⟨fun x => decide (3 ≤ x), 2⟩] 4 = some 2 ∧
    finalize [(⟨fun x => decide (x ≤ 5), 1⟩ : PaintCall ℕ ℕ),
        ⟨fun x => decide (3 ≤ x), 2⟩] 1 = some 1 := by
  constructor
  · have h := paint_lastWriteWins
      [(⟨fun x => decide (x ≤ 5), 1⟩ : PaintCall ℕ ℕ)]
      ⟨fun x => decide (3 ≤ x), 2⟩ 4
    exact h.2.1 rfl
  · have h := paint_lastWriteWins
      [(⟨fun x => decide (x ≤ 5), 1⟩ : PaintCall ℕ ℕ)]
      ⟨fun x => decide (3 ≤ x), 2⟩ 1
    have h2 := h.2.2 rfl
    show finalize ([(⟨fun x => decide (x ≤ 5), 1⟩ : PaintCall ℕ ℕ)] ++
        [⟨fun x => decide (3 ≤ x), 2⟩]) 1 = some 1
    rw [h2]
    rfl

end PaintMap

namespace Stimulus

/-- Modelled from the spec: a stimulus event as created by
`arbor.iclamp(onset, duration, current)` (engine code not in the source
tree) — onset time, duration and fixed current amplitude, targeting one
compartment. -/
structure Stim where
  onset : ℚ
  duration : ℚ
  amplitude : ℚ

/-- Modelled from the spec: the step current one stimulus delivers at
time t — its fixed amplitude exactly on the half-open interval
[onset, onset + duration), zero outside. -/
def stimCurrent (s : Stim) (t : ℚ) : ℚ :=
  if s.onset ≤ t ∧ t < s.onset + s.duration then s.amplitude else 0

/-- Modelled from the spec: total current delivered to one compartment by
a list of stimuli at time t — overlapping stimuli sum their currents. -/
def totalCurrent (ss : List Stim) (t : ℚ) : ℚ :=
  (ss.map (fun s => stimCurrent s t)).sum

/-- Modelled from the spec: total charge injected over a fixed-step run of
nsteps steps of width dt — the per-step current times dt, summed. -/
def injectedCharge (ss : List Stim) (dt : ℚ) (nsteps : ℕ) : ℚ :=
  ∑ i ∈ Finset.range nsteps, totalCurrent ss ((i : ℚ) * dt) * dt

/-- C3: a stimulus delivers its fixed amplitude exactly on
[onset, onset+duration) and nothing outside; stimuli at the same
compartment sum their currents; and a grid-aligned stimulus of amplitude A
and duration D covered by the run injects total charge exactly A * D. -/
theorem iclamp_delivery (s : Stim) (a b : List Stim) (t dt : ℚ)
    (n0 k nsteps : ℕ) (hdt : 0 < dt) (hon : s.onset = (n0 : ℚ) * dt)
    (hdur : s.duration = (k : ℚ) * dt) (hcov : n0 + k ≤ nsteps) :
    (s.onset ≤ t ∧ t < s.onset + s.duration → stimCurrent s t = s.amplitude) ∧
    (¬ (s.onset ≤ t ∧ t < s.onset + s.duration) → stimCurrent s t = 0) ∧
    totalCurrent (a ++ b) t = totalCurrent a t + totalCurrent b t ∧
    injectedCharge [s] dt nsteps = s.amplitude * s.duration := by
  refine ⟨fun h => by simp [stimCurrent, h], fun h => by simp [stimCurrent, h], ?_, ?_⟩
  · unfold totalCurrent
    rw [List.map_append, List.sum_append]
  · have hsingle : ∀ u : ℚ, totalCurrent [s] u = stimCurrent s u := by
      intro u; simp [totalCurrent]
    have hcond : ∀ i : ℕ,
        (s.onset ≤ (i : ℚ) * dt ∧ (i : ℚ) * dt < s.onset + s.duration) ↔
          (n0 ≤ i ∧ i < n0 + k) := by
      intro i
      rw [hon, hdur, ← add_mul]
      rw [mul_le_mul_right hdt, mul_lt_mul_right hdt]
      constructor
      · exact fun h => ⟨by exact_mod_cast h.1, by exact_mod_cast h.2⟩
      · exact fun h => ⟨by exact_mod_cast h.1, by exact_mod_cast h.2⟩
    unfold injectedCharge
    have hterm : ∀ i ∈ Finset.range nsteps,
        totalCurrent [s] ((i : ℚ) * dt) * dt =
          if n0 ≤ i ∧ i < n0 + k then s.amplitude * dt else 0 := by
      intro i _
      rw [hsingle]
      by_cases h : n0 ≤ i ∧ i < n0 + k
      · rw [if_pos h]
        unfold stimCurrent
        rw [if_pos ((hcond i).mpr h)]
      · rw [if_neg h]
        unfold stimCurrent
        rw [if_neg (fun hc => h ((hcond i).mp hc))]
        ring
    rw [Finset.sum_congr rfl hterm, ← Finset.sum_filter]
    have hset : (Finset.range nsteps).filter (fun i => n0 ≤ i ∧ i < n0 + k) =
        Finset.Ico n0 (n0 + k) := by
      ext i
      simp only [Finset.mem_filter, Finset.mem_range, Finset.mem_Ico]
      omega
    rw [hset, Finset.sum_const, Nat.card_Ico, Nat.add_sub_cancel_left,
      nsmul_eq_mul, hdur]
    ring

/-- Witness for C3: the demo's first clamp, onset 3 ms, duration 1 ms,
amplitude 2, on a 1 ms grid over 15 steps. -/
theorem iclamp_delivery_witness :
    stimCurrent ⟨3, 1, 2⟩ 3 = 2 ∧ injectedCharge [⟨3, 1, 2⟩] 1 15 = 2 * 1 := by
  have h := iclamp_delivery ⟨3, 1, 2⟩ [] [] 3 1 3 1 15 (by decide)
    (by norm_num) (by norm_num) (by decide)
  exact ⟨h.1 ⟨by norm_num, by norm_num⟩, h.2.2.2⟩

end Stimulus

namespace Stepper

/-- Modelled from the spec: observable state of the Time-Stepper for one
built model — number of fixed steps taken (time is nsteps * dt), the core
biophysical state, and the append-only sample and spike logs. -/
structure SimState (σ : Type) where
  nsteps : ℕ
  core : σ
  samples : List (ℕ × σ)
  spikes : List ℕ

/-- Modelled from the spec: one fixed step of the Time-Stepper — advance
the core state, advance time by one step, then record sampling and spike
detection for the new step. -/
def stepSim {σ : Type} (f : σ → σ) (spk : σ → Bool) (s : SimState σ) :
    SimState σ :=
  ⟨s.nsteps + 1, f s.core,
    s.samples ++ [(s.nsteps + 1, f s.core)],
    s.spikes ++ (if spk (f s.core) then [s.nsteps + 1] else [])⟩

/-- Modelled from the spec: number of further steps `run(until=tfinal)`
takes — it steps while nsteps * dt < tfinal, i.e. until nsteps reaches
the ceiling of tfinal / dt, continuing from the last reached time. -/
def stepsNeeded {σ : Type} (dt tfinal : ℚ) (s : SimState σ) : ℕ :=
  (⌈tfinal / dt⌉).toNat - s.nsteps

/-- Modelled from the spec: `run(until=tfinal)` — re-entrant continuation
from the current state, never restarting from zero. -/
def run {σ : Type} (f : σ → σ) (spk : σ → Bool) (dt tfinal : ℚ)
    (s : SimState σ) : SimState σ :=
  (stepSim f spk)^[stepsNeeded dt tfinal s] s

lemma nsteps_iterate {σ : Type} (f : σ → σ) (spk : σ → Bool) (k : ℕ)
    (s : SimState σ) : ((stepSim f spk)^[k] s).nsteps = s.nsteps + k := by
  induction k with
  | zero => rfl
  | succ n ih =>
      rw [Function.iterate_succ_apply', stepSim, ih]
      rfl

lemma logs_iterate {σ : Type} (f : σ → σ) (spk : σ → Bool) (k : ℕ)
    (s : SimState σ) :
    (∃ stail, ((stepSim f spk)^[k] s).samples = s.samples ++ stail) ∧
    (∃ ktail, ((stepSim f spk)^[k] s).spikes = s.spikes ++ ktail) := by
  induction k with
  | zero => exact ⟨⟨[], by simp⟩, ⟨[], by simp⟩⟩
  | succ n ih =>
      obtain ⟨⟨st, hst⟩, ⟨kt, hkt⟩⟩ := ih
      rw [Function.iterate_succ_apply']
      constructor
      · exact ⟨st ++ [_], by rw [stepSim, hst, List.append_assoc]⟩
      · exact ⟨kt ++ _, by rw [stepSim, hkt, List.append_assoc]⟩

/-- C1: continuation equivalence of the Time-Stepper — running to T1 and
then to T2 ≥ T1 yields exactly the same state (hence the same sample and
spike sequences) as a single run to T2; and a run only ever extends the
existing sample and spike logs, never restarting them. -/
theorem run_continuation {σ : Type} (f : σ → σ) (spk : σ → Bool)
    (dt T1 T2 : ℚ) (hdt : 0 < dt) (hT : T1 ≤ T2) (s : SimState σ) :
    run f spk dt T2 (run f spk dt T1 s) = run f spk dt T2 s ∧
    (∃ stail, (run f spk dt T1 s).samples = s.samples ++ stail) ∧
    (∃ ktail, (run f spk dt T1 s).spikes = s.spikes ++ ktail) := by
  have hdiv : T1 / dt ≤ T2 / dt := by
    exact div_le_div_of_nonneg_right hT hdt.le
  have hab : (⌈T1 / dt⌉).toNat ≤ (⌈T2 / dt⌉).toNat :=
    Int.toNat_le_toNat (Int.ceil_le_ceil hdiv)
  refine ⟨?_, (logs_iterate f spk _ s).1, (logs_iterate f spk _ s).2⟩
  unfold run stepsNeeded
  rw [nsteps_iterate, ← Function.iterate_add_apply]
  congr 1
  omega

/-- Witness for C1 with a concrete integer-core model, dt = 1, running to
time 2 and then to time 5. -/
theorem run_continuation_witness :
    run (fun v : ℤ => v + 1) (fun v => decide (0 ≤ v)) 1 5
        (run (fun v : ℤ => v + 1) (fun v => decide (0 ≤ v)) 1 2 ⟨0, -3, [], []⟩) =
      run (fun v : ℤ => v + 1) (fun v => decide (0 ≤ v)) 1 5 ⟨0, -3, [], []⟩ ∧
    (∃ stail, (run (fun v : ℤ => v + 1) (fun v => decide (0 ≤ v)) 1 2
        ⟨0, -3, [], []⟩).samples = ([] : List (ℕ × ℤ)) ++ stail) := by
  have h := run_continuation (fun v : ℤ => v + 1) (fun v => decide (0 ≤ v))
    1 2 5 (by decide) (by decide) ⟨0, -3, [], []⟩
  exact ⟨h.1, h.2.1⟩

end Stepper

namespace FailRun

/-- Modelled from the spec: phases of the Time-Stepper state machine,
with the additional failed phase an aborted run ends in. -/
inductive Phase where
  | built : Phase
  | running : Phase
  | failed : Phase
deriving DecidableEq

/-- Modelled from the spec: the run-time error taxonomy entry raised on a
non-finite voltage. -/
inductive SimError where
  | NonFinitePotential : SimError
deriving DecidableEq

/-- Modelled from the spec: Time-Stepper state carrying its phase, step
count, core state and the append-only sample and spike logs. -/
structure FState (σ : Type) where
  phase : Phase
  nsteps : ℕ
  core : σ
  samples : List (ℕ × σ)
  spikes : List ℕ

/-- Modelled from the spec: one guarded step of the Time-Stepper.  The
step function f returns none when the new voltage would be non-finite; in
that case the state moves to the failed phase keeping the logs of the
last valid step, and a failed state is never stepped again. -/
def stepF {σ : Type} (f : σ → Option σ) (spk : σ → Bool) (s : FState σ) :
    FState σ :=
  if s.phase = Phase.failed then s
  else
    match f s.core with
    | none => ⟨Phase.failed, s.nsteps, s.core, s.samples, s.spikes⟩
    | some c => ⟨Phase.running, s.nsteps + 1, c,
        s.samples ++ [(s.nsteps + 1, c)],
        s.spikes ++ (if spk c then [s.nsteps + 1] else [])⟩

/-- Modelled from the spec: a run of k guarded steps, reporting
NonFinitePotential when the reached state is failed (in particular a run
attempted from an already failed state reports it without stepping). -/
def runF {σ : Type} (f : σ → Option σ) (spk : σ → Bool) (k : ℕ)
    (s : FState σ) : Except SimError (FState σ) :=
  if ((stepF f spk)^[k] s).phase = Phase.failed then
    Except.error SimError.NonFinitePotential
  else Except.ok ((stepF f spk)^[k] s)

lemma stepF_failed {σ : Type} (f : σ → Option σ) (spk : σ → Bool)
    (s : FState σ) (h : s.phase = Phase.failed) : stepF f spk s = s := by
  unfold stepF
  rw [if_pos h]

lemma iterate_stepF_failed {σ : Type} (f : σ → Option σ) (spk : σ → Bool)
    (k : ℕ) (s : FState σ) (h : s.phase = Phase.failed) :
    (stepF f spk)^[k] s = s := by
  induction k with
  | zero => rfl
  | succ n ih => rw [Function.iterate_succ_apply', ih, stepF_failed f spk s h]

/-- C5: NonFinitePotential atomicity — when a step makes the voltage
non-finite, the state enters the failed phase, all samples and spikes
recorded up to the last valid step remain retrievable unchanged, any
further stepping is a no-op, and every subsequent run attempt fails with
NonFinitePotential instead of stepping. -/
theorem nonFinite_atomic {σ : Type} (f : σ → Option σ) (spk : σ → Bool)
    (s : FState σ) (hs : s.phase ≠ Phase.failed) (hf : f s.core = none) :
    (stepF f spk s).phase = Phase.failed ∧
    (stepF f spk s).samples = s.samples ∧
    (stepF f spk s).spikes = s.spikes ∧
    (∀ k, (stepF f spk)^[k] (stepF f spk s) = stepF f spk s) ∧
    (∀ k, runF f spk k (stepF f spk s) =
      Except.error SimError.NonFinitePotential) := by
  have hstep : stepF f spk s = ⟨Phase.failed, s.nsteps, s.core, s.samples, s.spikes⟩ := by
    unfold stepF
    rw [if_neg hs, hf]
  refine ⟨by rw [hstep], by rw [hstep], by rw [hstep], ?_, ?_⟩
  · intro k
    exact iterate_stepF_failed f spk k _ (by rw [hstep])
  · intro k
    unfold runF
    rw [iterate_stepF_failed f spk k _ (by rw [hstep]), if_pos (by rw [hstep])]

/-- Witness for C5 with an integer-voltage model that diverges past 100:
from core voltage 200 the next step is non-finite. -/
theorem nonFinite_atomic_witness :
    (stepF (fun v : ℤ => if 100 < v then none else some (v + 200))
        (fun v => decide (0 ≤ v))
        ⟨Phase.built, 0, 200, [], []⟩).phase = Phase.failed ∧
    runF (fun v : ℤ => if 100 < v then none else some (v + 200))
        (fun v => decide (0 ≤ v)) 2
        (stepF (fun v : ℤ => if 100 < v then none else some (v + 200))
          (fun v => decide (0 ≤ v)) ⟨Phase.built, 0, 200, [], []⟩) =
      Except.error SimError.NonFinitePotential := by
  have h := nonFinite_atomic
    (fun v : ℤ => if 100 < v then none else some (v + 200))
    (fun v => decide (0 ≤ v)) ⟨Phase.built, 0, 200, [], []⟩
    (by decide) (by decide)
  exact ⟨h.1, h.2.2.2.2 2⟩

end FailRun

namespace Resolver

/-- Modelled from the spec: a resolved Region — a set of branch intervals
(branch index, normalized start, normalized end), 0 ≤ start ≤ end ≤ 1. -/
abbrev Region := List (ℕ × ℚ × ℚ)

/-- Modelled from the spec: a resolved Locset — a set of discrete
(branch index, normalized position) points. -/
abbrev Locset := List (ℕ × ℚ)

/-- Membership of a morphological point (branch, position) in a resolved
region: some interval of the region lies on the point's branch and covers
its position. -/
def memRegion (x : ℕ × ℚ) (R : Region) : Prop :=
  ∃ i ∈ R, i.1 = x.1 ∧ i.2.1 ≤ x.2 ∧ x.2 ≤ i.2.2

instance memRegion.dec (x : ℕ × ℚ) (R : Region) : Decidable (memRegion x R) := by
  unfold memRegion
  infer_instance

/-- Set denotation of a resolved region (set semantics: overlapping
intervals are never counted twice). -/
def denote (R : Region) : Set (ℕ × ℚ) := { x | memRegion x R }

/-- Modelled from the spec: union of resolved regions — the combined
interval set. -/
def runion (a b : Region) : Region := a ++ b

/-- Intersection of two branch intervals, when nonempty. -/
def interInterval (i j : ℕ × ℚ × ℚ) : Option (ℕ × ℚ × ℚ) :=
  if i.1 = j.1 ∧ max i.2.1 j.2.1 ≤ min i.2.2 j.2.2 then
    some (i.1, max i.2.1 j.2.1, min i.2.2 j.2.2)
  else none

/-- Modelled from the spec: intersection of resolved regions — pairwise
interval intersections. -/
def rinter (a b : Region) : Region :=
  a.flatMap (fun i => b.filterMap (fun j => interInterval i j))

lemma mem_runion (x : ℕ × ℚ) (a b : Region) :
    memRegion x (runion a b) ↔ memRegion x a ∨ memRegion x b := by
  unfold memRegion runion
  constructor
  · rintro ⟨i, hi, hx⟩
    rcases List.mem_append.mp hi with h | h
    · exact Or.inl ⟨i, h, hx⟩
    · exact Or.inr ⟨i, h, hx⟩
  · rintro (⟨i, hi, hx⟩ | ⟨i, hi, hx⟩)
    · exact ⟨i, List.mem_append.mpr (Or.inl hi), hx⟩
    · exact ⟨i, List.mem_append.mpr (Or.inr hi), hx⟩

lemma mem_interInterval (x : ℕ × ℚ) (i j c : ℕ × ℚ × ℚ)
    (hc : interInterval i j = some c) :
    (c.1 = x.1 ∧ c.2.1 ≤ x.2 ∧ x.2 ≤ c.2.2) ↔
      ((i.1 = x.1 ∧ i.2.1 ≤ x.2 ∧ x.2 ≤ i.2.2) ∧
       (j.1 = x.1 ∧ j.2.1 ≤ x.2 ∧ x.2 ≤ j.2.2)) := by
  unfold interInterval at hc
  by_cases h : i.1 = j.1 ∧ max i.2.1 j.2.1 ≤ min i.2.2 j.2.2
  · rw [if_pos h] at hc
    obtain ⟨hbr, _⟩ := h
    cases hc
    constructor
    · rintro ⟨h1, h2, h3⟩
      simp only [max_le_iff] at h2
      simp only [le_min_iff] at h3
      exact ⟨⟨h1, h2.1, h3.1⟩, ⟨hbr ▸ h1, h2.2, h3.2⟩⟩
    · rintro ⟨⟨h1, h2, h3⟩, ⟨h4, h5, h6⟩⟩
      refine ⟨h1, max_le h2 h5, le_min h3 h6⟩
  · rw [if_neg h] at hc
    exact absurd hc (by simp)

lemma mem_rinter (x : ℕ × ℚ) (a b : Region) :
    memRegion x (rinter a b) ↔ memRegion x a ∧ memRegion x b := by
  unfold rinter
  constructor
  · rintro ⟨c, hc, hx⟩
    rcases List.mem_flatMap.mp hc with ⟨i, hi, hmem⟩
    rcases List.mem_filterMap.mp hmem with ⟨j, hj, hij⟩
    have h := (mem_interInterval x i j c hij).mp hx
    exact ⟨⟨i, hi, h.1⟩, ⟨j, hj, h.2⟩⟩
  · rintro ⟨⟨i, hi, hxi⟩, ⟨j, hj, hxj⟩⟩
    have hbr : i.1 = j.1 := hxi.1.trans hxj.1.symm
    have hmaxx : max i.2.1 j.2.1 ≤ x.2 := max_le hxi.2.1 hxj.2.1
    have hxmin : x.2 ≤ min i.2.2 j.2.2 := le_min hxi.2.2 hxj.2.2
    have hcond : i.1 = j.1 ∧ max i.2.1 j.2.1 ≤ min i.2.2 j.2.2 :=
      ⟨hbr, hmaxx.trans hxmin⟩
    have hij : interInterval i j =
        some (i.1, max i.2.1 j.2.1, min i.2.2 j.2.2) := by
      unfold interInterval
      rw [if_pos hcond]
    refine ⟨(i.1, max i.2.1 j.2.1, min i.2.2 j.2.2), ?_, hxi.1, hmaxx, hxmin⟩
    exact List.mem_flatMap.mpr ⟨i, hi, List.mem_filterMap.mpr ⟨j, hj, hij⟩⟩

/-- C9: region set algebra — over the resolved interval-set
representation, union and intersection denote set union and set
intersection (so combining intervals from subexpressions never
double-counts overlapping segments), and both operations are associative,
commutative and idempotent under that set semantics. -/
theorem region_algebra (a b c : Region) :
    denote (runion a b) = denote a ∪ denote b ∧
    denote (rinter a b) = denote a ∩ denote b ∧
    denote (runion (runion a b) c) = denote (runion a (runion b c)) ∧
    denote (runion a b) = denote (runion b a) ∧
    denote (runion a a) = denote a ∧
    denote (rinter (rinter a b) c) = denote (rinter a (rinter b c)) ∧
    denote (rinter a b) = denote (rinter b a) ∧
    denote (rinter a a) = denote a := by
  have hu : ∀ u v : Region, denote (runion u v) = denote u ∪ denote v := by
    intro u v
    ext x
    exact mem_runion x u v
  have hi : ∀ u v : Region, denote (rinter u v) = denote u ∩ denote v := by
    intro u v
    ext x
    exact mem_rinter x u v
  refine ⟨hu a b, hi a b, ?_, ?_, ?_, ?_, ?_, ?_⟩
  · rw [hu, hu, hu, hu, Set.union_assoc]
  · rw [hu, hu, Set.union_comm]
  · rw [hu, Set.union_self]
  · rw [hi, hi, hi, hi, Set.inter_assoc]
  · rw [hi, hi, Set.inter_comm]
  · rw [hi, Set.inter_self]

end Resolver

namespace Resolver

/-- Modelled from the spec: the morphology data the Resolver queries —
branch count, per-branch tag, and which branches end at terminal points. -/
structure Morph where
  nbranches : ℕ
  branchTag : ℕ → ℤ
  isTerminal : ℕ → Bool

/-- Modelled from the spec: the Resolver's symbolic expression grammar
(`tag`, `root`, `terminal`, `location`, `restrict`, union, intersection,
named reference), as used by `arbor.label_dict`. -/
inductive RExpr where
  | tag : ℤ → RExpr
  | root : RExpr
  | terminal : RExpr
  | location : ℕ → ℚ → RExpr
  | restrict : RExpr → RExpr → RExpr
  | eunion : RExpr → RExpr → RExpr
  | einter : RExpr → RExpr → RExpr
  | named : String → RExpr
deriving DecidableEq

/-- Modelled from the spec: the Resolver's error taxonomy entries. -/
inductive LabelError where
  | UnresolvedLabel : LabelError
  | CyclicLabelDefinition : LabelError
  | AmbiguousLocation : LabelError
deriving DecidableEq

/-- Modelled from the spec: a resolved value — a Region or a Locset. -/
inductive RValue where
  | region : Region → RValue
  | locset : Locset → RValue
deriving DecidableEq

/-- Union of two resolved values of the same kind. -/
def vunion : RValue → RValue → Except LabelError RValue
  | RValue.region a, RValue.region b => Except.ok (RValue.region (runion a b))
  | RValue.locset a, RValue.locset b => Except.ok (RValue.locset (a ++ b))
  | _, _ => Except.error LabelError.AmbiguousLocation

/-- Intersection of two resolved values of the same kind. -/
def vinter : RValue → RValue → Except LabelError RValue
  | RValue.region a, RValue.region b => Except.ok (RValue.region (rinter a b))
  | RValue.locset a, RValue.locset b =>
      Except.ok (RValue.locset (a.filter (fun p => decide (p ∈ b))))
  | _, _ => Except.error LabelError.AmbiguousLocation

/-- Restriction of a locset to a region (or region to region). -/
def vrestrict : RValue → RValue → Except LabelError RValue
  | RValue.locset a, RValue.region b =>
      Except.ok (RValue.locset (a.filter (fun p => decide (memRegion p b))))
  | RValue.region a, RValue.region b => Except.ok (RValue.region (rinter a b))
  | _, _ => Except.error LabelError.AmbiguousLocation

/-- Modelled from the spec: resolution of a symbolic expression against a
morphology and a name-to-expression dictionary.  The visited list carries
the names currently being resolved (self-reference through it fails with
CyclicLabelDefinition); unknown names fail with UnresolvedLabel; a
`location` whose branch or position does not exist fails with
AmbiguousLocation and is never clamped.  The fuel only bounds reference
chains and never runs out when it starts at the dictionary size. -/
def resolveE (m : Morph) (dict : List (String × RExpr)) :
    List String → ℕ → RExpr → Except LabelError RValue
  | _, _, RExpr.tag t =>
      Except.ok (RValue.region (((List.range m.nbranches).filter
        (fun b => m.branchTag b = t)).map (fun b => (b, (0 : ℚ), (1 : ℚ)))))
  | _, _, RExpr.root => Except.ok (RValue.locset [(0, 0)])
  | _, _, RExpr.terminal =>
      Except.ok (RValue.locset (((List.range m.nbranches).filter
        (fun b => m.isTerminal b)).map (fun b => (b, (1 : ℚ)))))
  | _, _, RExpr.location b p =>
      if b < m.nbranches ∧ 0 ≤ p ∧ p ≤ 1 then
        Except.ok (RValue.locset [(b, p)])
      else Except.error LabelError.AmbiguousLocation
  | vis, fuel, RExpr.restrict e1 e2 => do
      let v1 ← resolveE m dict vis fuel e1
      let v2 ← resolveE m dict vis fuel e2
      vrestrict v1 v2
  | vis, fuel, RExpr.eunion e1 e2 => do
      let v1 ← resolveE m dict vis fuel e1
      let v2 ← resolveE m dict vis fuel e2
      vunion v1 v2
  | vis, fuel, RExpr.einter e1 e2 => do
      let v1 ← resolveE m dict vis fuel e1
      let v2 ← resolveE m dict vis fuel e2
      vinter v1 v2
  | vis, fuel, RExpr.named n =>
      if n ∈ vis then Except.error LabelError.CyclicLabelDefinition
      else
        match List.lookup n dict with
        | none => Except.error LabelError.UnresolvedLabel
        | some e =>
            match fuel with
            | 0 => Except.error LabelError.CyclicLabelDefinition
            | f + 1 => resolveE m dict (n :: vis) f e
termination_by _vis fuel e => (fuel, sizeOf e)

/-- Modelled from the spec: `resolve(name)` — looks the name up in the
dictionary and resolves its definition, with the name itself marked as
being resolved. -/
def resolve (m : Morph) (dict : List (String × RExpr)) (n : String) :
    Except LabelError RValue :=
  match List.lookup n dict with
  | none => Except.error LabelError.UnresolvedLabel
  | some e => resolveE m dict [n] dict.length e

/-- Names referenced inside a resolver expression. -/
def namesOf : RExpr → List String
  | RExpr.restrict a b => namesOf a ++ namesOf b
  | RExpr.eunion a b => namesOf a ++ namesOf b
  | RExpr.einter a b => namesOf a ++ namesOf b
  | RExpr.named n => [n]
  | _ => []

/-- A dictionary is closed when every name referenced by one of its
definitions is itself defined. -/
def closedDict (dict : List (String × RExpr)) : Prop :=
  ∀ kv ∈ dict, ∀ nm ∈ namesOf kv.2, (List.lookup nm dict).isSome = true

instance closedDict.dec (dict : List (String × RExpr)) :
    Decidable (closedDict dict) := by
  unfold closedDict
  infer_instance

lemma lookup_mem {β : Type} (l : List (String × β)) (a : String) (b : β) :
    List.lookup a l = some b → (a, b) ∈ l := by
  induction l with
  | nil => intro h; exact Option.noConfusion h
  | cons kv rest ih =>
      obtain ⟨k, v⟩ := kv
      intro h
      rw [List.lookup] at h
      cases hbeq : a == k with
      | true =>
          rw [hbeq] at h
          dsimp only at h
          cases Option.some_inj.mp h
          rw [eq_of_beq hbeq]
          exact List.mem_cons.mpr (Or.inl rfl)
      | false =>
          rw [hbeq] at h
          dsimp only at h
          exact List.mem_cons.mpr (Or.inr (ih h))

lemma vunion_ne_unresolved (v1 v2 : RValue) :
    vunion v1 v2 ≠ Except.error LabelError.UnresolvedLabel := by
  cases v1 <;> cases v2 <;> simp [vunion]

lemma vinter_ne_unresolved (v1 v2 : RValue) :
    vinter v1 v2 ≠ Except.error LabelError.UnresolvedLabel := by
  cases v1 <;> cases v2 <;> simp [vinter]

lemma vrestrict_ne_unresolved (v1 v2 : RValue) :
    vrestrict v1 v2 ≠ Except.error LabelError.UnresolvedLabel := by
  cases v1 <;> cases v2 <;> simp [vrestrict]

lemma bind_ne_unresolved {r1 : Except LabelError RValue}
    {f : RValue → Except LabelError RValue}
    (h1 : r1 ≠ Except.error LabelError.UnresolvedLabel)
    (h2 : ∀ w, f w ≠ Except.error LabelError.UnresolvedLabel) :
    (r1 >>= f) ≠ Except.error LabelError.UnresolvedLabel := by
  cases r1 with
  | error a => exact h1
  | ok w => exact h2 w

/-- Over a closed dictionary, resolution can fail with
CyclicLabelDefinition or AmbiguousLocation but never with
UnresolvedLabel: every lookup it performs succeeds. -/
lemma resolveE_ne_unresolved (m : Morph) (dict : List (String × RExpr))
    (hcl : closedDict dict) :
    ∀ (fuel : ℕ) (e : RExpr) (vis : List String),
      (∀ nm ∈ namesOf e, (List.lookup nm dict).isSome = true) →
      resolveE m dict vis fuel e ≠ Except.error LabelError.UnresolvedLabel := by
  intro fuel
  induction fuel with
  | zero =>
      intro e
      induction e with
      | tag t => intro vis hnm; rw [resolveE.eq_def]; dsimp only; simp
      | root => intro vis hnm; rw [resolveE.eq_def]; dsimp only; simp
      | terminal => intro vis hnm; rw [resolveE.eq_def]; dsimp only; simp
      | location b p =>
          intro vis hnm
          rw [resolveE.eq_def]
          dsimp only
          by_cases hc : b < m.nbranches ∧ 0 ≤ p ∧ p ≤ 1
          · rw [if_pos hc]; simp
          · rw [if_neg hc]; simp
      | restrict e1 e2 ih1 ih2 =>
          intro vis hnm
          rw [resolveE.eq_def]
          dsimp only
          refine bind_ne_unresolved (ih1 vis ?_) fun w1 => ?_
          · intro nm hnm2
            exact hnm nm (by simp only [namesOf, List.mem_append]; exact Or.inl hnm2)
          refine bind_ne_unresolved (ih2 vis ?_) fun w2 => ?_
          · intro nm hnm2
            exact hnm nm (by simp only [namesOf, List.mem_append]; exact Or.inr hnm2)
          exact vrestrict_ne_unresolved w1 w2
      | eunion e1 e2 ih1 ih2 =>
          intro vis hnm
          rw [resolveE.eq_def]
          dsimp only
          refine bind_ne_unresolved (ih1 vis ?_) fun w1 => ?_
          · intro nm hnm2
            exact hnm nm (by simp only [namesOf, List.mem_append]; exact Or.inl hnm2)
          refine bind_ne_unresolved (ih2 vis ?_) fun w2 => ?_
          · intro nm hnm2
            exact hnm nm (by simp only [namesOf, List.mem_append]; exact Or.inr hnm2)
          exact vunion_ne_unresolved w1 w2
      | einter e1 e2 ih1 ih2 =>
          intro vis hnm
          rw [resolveE.eq_def]
          dsimp only
          refine bind_ne_unresolved (ih1 vis ?_) fun w1 => ?_
          · intro nm hnm2
            exact hnm nm (by simp only [namesOf, List.mem_append]; exact Or.inl hnm2)
          refine bind_ne_unresolved (ih2 vis ?_) fun w2 => ?_
          · intro nm hnm2
            exact hnm nm (by simp only [namesOf, List.mem_append]; exact Or.inr hnm2)
          exact vinter_ne_unresolved w1 w2
      | named nm =>
          intro vis hnm
          rw [resolveE.eq_def]
          dsimp only
          by_cases hv : nm ∈ vis
          · rw [if_pos hv]; simp
          · rw [if_neg hv]
            have hsome := hnm nm (by simp [namesOf])
            cases hl : List.lookup nm dict with
            | none => rw [hl] at hsome; exact absurd hsome (by simp)
            | some e2 =>
                dsimp only
                simp
  | succ f ihf =>
      intro e
      induction e with
      | tag t => intro vis hnm; rw [resolveE.eq_def]; dsimp only; simp
      | root => intro vis hnm; rw [resolveE.eq_def]; dsimp only; simp
      | terminal => intro vis hnm; rw [resolveE.eq_def]; dsimp only; simp
      | location b p =>
          intro vis hnm
          rw [resolveE.eq_def]
          dsimp only
          by_cases hc : b < m.nbranches ∧ 0 ≤ p ∧ p ≤ 1
          · rw [if_pos hc]; simp
          · rw [if_neg hc]; simp
      | restrict e1 e2 ih1 ih2 =>
          intro vis hnm
          rw [resolveE.eq_def]
          dsimp only
          refine bind_ne_unresolved (ih1 vis ?_) fun w1 => ?_
          · intro nm hnm2
            exact hnm nm (by simp only [namesOf, List.mem_append]; exact Or.inl hnm2)
          refine bind_ne_unresolved (ih2 vis ?_) fun w2 => ?_
          · intro nm hnm2
            exact hnm nm (by simp only [namesOf, List.mem_append]; exact Or.inr hnm2)
          exact vrestrict_ne_unresolved w1 w2
      | eunion e1 e2 ih1 ih2 =>
          intro vis hnm
          rw [resolveE.eq_def]
          dsimp only
          refine bind_ne_unresolved (ih1 vis ?_) fun w1 => ?_
          · intro nm hnm2
            exact hnm nm (by simp only [namesOf, List.mem_append]; exact Or.inl hnm2)
          refine bind_ne_unresolved (ih2 vis ?_) fun w2 => ?_
          · intro nm hnm2
            exact hnm nm (by simp only [namesOf, List.mem_append]; exact Or.inr hnm2)
          exact vunion_ne_unresolved w1 w2
      | einter e1 e2 ih1 ih2 =>
          intro vis hnm
          rw [resolveE.eq_def]
          dsimp only
          refine bind_ne_unresolved (ih1 vis ?_) fun w1 => ?_
          · intro nm hnm2
            exact hnm nm (by simp only [namesOf, List.mem_append]; exact Or.inl hnm2)
          refine bind_ne_unresolved (ih2 vis ?_) fun w2 => ?_
          · intro nm hnm2
            exact hnm nm (by simp only [namesOf, List.mem_append]; exact Or.inr hnm2)
          exact vinter_ne_unresolved w1 w2
      | named nm =>
          intro vis hnm
          rw [resolveE.eq_def]
          dsimp only
          by_cases hv : nm ∈ vis
          · rw [if_pos hv]; simp
          · rw [if_neg hv]
            have hsome := hnm nm (by simp [namesOf])
            cases hl : List.lookup nm dict with
            | none => rw [hl] at hsome; exact absurd hsome (by simp)
            | some e2 =>
                dsimp only
                exact ihf e2 (nm :: vis) (hcl (nm, e2) (lookup_mem dict nm e2 hl))

/-- C6: resolver error contract — an unknown name fails with
UnresolvedLabel, and over a closed dictionary resolution fails with
UnresolvedLabel exactly when the name is unknown; a self-referential
definition fails with CyclicLabelDefinition; a `location(branch, pos)` query that does not
correspond to an existing branch and normalized position fails with
AmbiguousLocation; and a successful `location` resolution returns exactly
the requested valid point, never a clamped one. -/
theorem resolve_error_contract (m : Morph) (dict : List (String × RExpr))
    (n : String) (b : ℕ) (p : ℚ) (vis : List String) (fuel : ℕ)
    (v : RValue) :
    (List.lookup n dict = none →
      resolve m dict n = Except.error LabelError.UnresolvedLabel) ∧
    (closedDict dict →
      (resolve m dict n = Except.error LabelError.UnresolvedLabel ↔
        List.lookup n dict = none)) ∧
    (List.lookup n dict = some (RExpr.named n) →
      resolve m dict n = Except.error LabelError.CyclicLabelDefinition) ∧
    (¬ (b < m.nbranches ∧ 0 ≤ p ∧ p ≤ 1) →
      resolveE m dict vis fuel (RExpr.location b p) =
        Except.error LabelError.AmbiguousLocation) ∧
    (resolveE m dict vis fuel (RExpr.location b p) = Except.ok v →
      v = RValue.locset [(b, p)] ∧ b < m.nbranches ∧ 0 ≤ p ∧ p ≤ 1) := by
  have hA : List.lookup n dict = none →
      resolve m dict n = Except.error LabelError.UnresolvedLabel := by
    intro h
    unfold resolve
    rw [h]
  refine ⟨hA, ?_, ?_, ?_, ?_⟩
  · intro hcl
    constructor
    · intro hres
      cases hl : List.lookup n dict with
      | none => rfl
      | some e =>
          exfalso
          unfold resolve at hres
          rw [hl] at hres
          dsimp only at hres
          exact resolveE_ne_unresolved m dict hcl dict.length e [n]
            (hcl (n, e) (lookup_mem dict n e hl)) hres
    · exact hA
  · intro h
    unfold resolve
    rw [h]
    dsimp only
    rw [resolveE.eq_def]
    dsimp only
    rw [if_pos (List.mem_singleton.mpr rfl)]
  · intro h
    rw [resolveE.eq_def]
    dsimp only
    rw [if_neg h]
  · intro h
    rw [resolveE.eq_def] at h
    dsimp only at h
    by_cases hc : b < m.nbranches ∧ 0 ≤ p ∧ p ≤ 1
    · rw [if_pos hc] at h
      cases h
      exact ⟨rfl, hc⟩
    · rw [if_neg hc] at h
      exact absurd h (by simp)

/-- Witness for C6 on a one-branch morphology with a closed dictionary
holding a tag definition and a self-referential definition. -/
theorem resolve_error_contract_witness :
    resolve ⟨1, fun _ => 1, fun _ => true⟩
        [("soma", RExpr.tag 1), ("loop", RExpr.named "loop")] "missing" =
      Except.error LabelError.UnresolvedLabel ∧
    resolve ⟨1, fun _ => 1, fun _ => true⟩
        [("soma", RExpr.tag 1), ("loop", RExpr.named "loop")] "loop" =
      Except.error LabelError.CyclicLabelDefinition ∧
    resolve ⟨1, fun _ => 1, fun _ => true⟩
        [("soma", RExpr.tag 1), ("loop", RExpr.named "loop")] "soma" ≠
      Except.error LabelError.UnresolvedLabel ∧
    resolveE ⟨1, fun _ => 1, fun _ => true⟩
        [("soma", RExpr.tag 1), ("loop", RExpr.named "loop")] [] 2
        (RExpr.location 5 (1 / 2)) =
      Except.error LabelError.AmbiguousLocation := by
  have h1 := resolve_error_contract ⟨1, fun _ => 1, fun _ => true⟩
    [("soma", RExpr.tag 1), ("loop", RExpr.named "loop")] "missing" 5 (1 / 2)
    [] 2 (RValue.locset [])
  have h2 := resolve_error_contract ⟨1, fun _ => 1, fun _ => true⟩
    [("soma", RExpr.tag 1), ("loop", RExpr.named "loop")] "loop" 5 (1 / 2)
    [] 2 (RValue.locset [])
  have h3 := resolve_error_contract ⟨1, fun _ => 1, fun _ => true⟩
    [("soma", RExpr.tag 1), ("loop", RExpr.named "loop")] "soma" 5 (1 / 2)
    [] 2 (RValue.locset [])
  refine ⟨h1.1 (by rfl), h2.2.2.1 (by rfl), ?_, h1.2.2.2.1 (by decide)⟩
  intro hh
  have hnone := (h3.2.1 (by decide)).mp hh
  rw [show List.lookup "soma" [("soma", RExpr.tag 1),
    ("loop", RExpr.named "loop")] = some (RExpr.tag 1) from rfl] at hnone
  exact Option.noConfusion hnone

end Resolver

namespace Sampler

/-- Modelled from the spec: sampler state for one probe — the index of
the next scheduled sample instant (instants are k * period for
k = 0, 1, 2, ...; every instant of smaller index is already covered) and
the recorded (time, value) output sequence. -/
structure SState (σ : Type) where
  nextInstant : ℕ
  out : List (ℚ × σ)

/-- Modelled from the spec: one local step of the sampler.  When the step
time has reached the next scheduled instant, one (time, value) record is
appended and the schedule advances past every instant at or below the
step time, so an instant is recorded at the first local step time ≥ it
and never twice. -/
def sampleStep {σ : Type} (period : ℚ) (s : SState σ) (tv : ℚ × σ) :
    SState σ :=
  if (s.nextInstant : ℚ) * period ≤ tv.1 then
    ⟨(⌊tv.1 / period⌋ + 1).toNat, s.out ++ [tv]⟩
  else s

/-- Modelled from the spec: running one probe's sampler over the run's
local step observations, in order. -/
def runSampler {σ : Type} (period : ℚ) (steps : List (ℚ × σ)) : SState σ :=
  steps.foldl (sampleStep period) ⟨0, []⟩

lemma sampler_out_mem {σ : Type} (period : ℚ) (steps : List (ℚ × σ)) :
    ∀ (st : SState σ) (x : ℚ × σ), x ∈ st.out →
      x ∈ (steps.foldl (sampleStep period) st).out := by
  induction steps with
  | nil => intro st x hx; exact hx
  | cons tv rest ih =>
      intro st x hx
      rw [List.foldl_cons]
      refine ih _ x ?_
      unfold sampleStep
      by_cases h : (st.nextInstant : ℚ) * period ≤ tv.1
      · rw [if_pos h]
        exact List.mem_append.mpr (Or.inl hx)
      · rw [if_neg h]
        exact hx

lemma sampler_out_source {σ : Type} (period : ℚ) (steps : List (ℚ × σ)) :
    ∀ (st : SState σ) (x : ℚ × σ),
      x ∈ (steps.foldl (sampleStep period) st).out →
      x ∈ st.out ∨ x ∈ steps := by
  induction steps with
  | nil => intro st x hx; exact Or.inl hx
  | cons tv rest ih =>
      intro st x hx
      rw [List.foldl_cons] at hx
      rcases ih _ x hx with h | h
      · unfold sampleStep at h
        by_cases hc : (st.nextInstant : ℚ) * period ≤ tv.1
        · rw [if_pos hc] at h
          rcases List.mem_append.mp h with h2 | h2
          · exact Or.inl h2
          · exact Or.inr (List.mem_cons.mpr (Or.inl (List.mem_singleton.mp h2)))
        · rw [if_neg hc] at h
          exact Or.inl h
      · exact Or.inr (List.mem_cons.mpr (Or.inr h))

lemma sampler_chain {σ : Type} (period : ℚ) (steps : List (ℚ × σ)) :
    ∀ st : SState σ,
      (st.out.map Prod.fst).Pairwise (· < ·) →
      (steps.map Prod.fst).Pairwise (· < ·) →
      (∀ o ∈ st.out, ∀ s ∈ steps, o.1 < s.1) →
      ((steps.foldl (sampleStep period) st).out.map Prod.fst).Pairwise (· < ·) := by
  induction steps with
  | nil => intro st h1 _ _; exact h1
  | cons tv rest ih =>
      intro st h1 h2 h3
      rw [List.foldl_cons]
      rw [List.map_cons, List.pairwise_cons] at h2
      unfold sampleStep
      by_cases hc : (st.nextInstant : ℚ) * period ≤ tv.1
      · rw [if_pos hc]
        refine ih _ ?_ h2.2 ?_
        · rw [List.map_append, List.pairwise_append]
          refine ⟨h1, List.pairwise_singleton _ _, ?_⟩
          intro a ha b hb
          rcases List.mem_map.mp ha with ⟨o, ho, rfl⟩
          rcases List.mem_map.mp hb with ⟨s2, hs2, rfl⟩
          rw [List.mem_singleton.mp hs2]
          exact h3 o ho tv (List.mem_cons_self _ _)
        · intro o ho s hs
          rcases List.mem_append.mp ho with h4 | h4
          · exact h3 o h4 s (List.mem_cons.mpr (Or.inr hs))
          · rw [List.mem_singleton.mp h4]
            exact h2.1 s.1 (List.mem_map.mpr ⟨s, hs, rfl⟩)
      · rw [if_neg hc]
        refine ih _ h1 h2.2 ?_
        intro o ho s hs
        exact h3 o ho s (List.mem_cons.mpr (Or.inr hs))

lemma sampler_covers {σ : Type} (period : ℚ) (hp : 0 < period)
    (steps : List (ℚ × σ)) :
    ∀ (st : SState σ) (k : ℕ), st.nextInstant ≤ k →
      ∀ x, steps.find? (fun s => decide ((k : ℚ) * period ≤ s.1)) = some x →
        x ∈ (steps.foldl (sampleStep period) st).out := by
  induction steps with
  | nil => intro st k _ x hx; exact absurd hx (by simp)
  | cons tv rest ih =>
      intro st k hk x hx
      rw [List.foldl_cons]
      by_cases hdue : (k : ℚ) * period ≤ tv.1
      · have hfind : x = tv := by
          rw [List.find?_cons_of_pos _ (by simpa using hdue)] at hx
          exact (Option.some_inj.mp hx).symm
        rw [hfind]
        have hrec : (st.nextInstant : ℚ) * period ≤ tv.1 := by
          refine le_trans ?_ hdue
          have : (st.nextInstant : ℚ) ≤ (k : ℚ) := by exact_mod_cast hk
          exact mul_le_mul_of_nonneg_right this hp.le
        refine sampler_out_mem period rest _ tv ?_
        unfold sampleStep
        rw [if_pos hrec]
        exact List.mem_append.mpr (Or.inr (List.mem_singleton.mpr rfl))
      · rw [List.find?_cons_of_neg _ (by simpa using hdue)] at hx
        refine ih _ k ?_ x hx
        unfold sampleStep
        by_cases hc : (st.nextInstant : ℚ) * period ≤ tv.1
        · rw [if_pos hc]
          show (⌊tv.1 / period⌋ + 1).toNat ≤ k
          rw [Int.toNat_le]
          have hfl : ⌊tv.1 / period⌋ < (k : ℤ) := by
            rw [Int.floor_lt]
            rw [div_lt_iff₀ hp]
            push_cast
            exact lt_of_not_le hdue
          omega
        · rw [if_neg hc]
          exact hk

/-- C7: sampler monotonicity invariant — over strictly increasing local
step times, the probe's recorded (time, value) sequence has strictly
increasing times (so no instant is ever recorded twice), every record is
one of the run's actual step observations, and every scheduled instant
k * period reached by the run is recorded at the first local step time
that is greater than or equal to it. -/
theorem sampler_contract {σ : Type} (period : ℚ) (hp : 0 < period)
    (steps : List (ℚ × σ)) (k : ℕ)
    (hsort : (steps.map Prod.fst).Pairwise (· < ·)) :
    ((runSampler period steps).out.map Prod.fst).Pairwise (· < ·) ∧
    (∀ x ∈ (runSampler period steps).out, x ∈ steps) ∧
    (∀ x, steps.find? (fun s => decide ((k : ℚ) * period ≤ s.1)) = some x →
      x ∈ (runSampler period steps).out) := by
  refine ⟨?_, ?_, ?_⟩
  · exact sampler_chain period steps ⟨0, []⟩ (by simp) hsort (by simp)
  · intro x hx
    rcases sampler_out_source period steps ⟨0, []⟩ x hx with h | h
    · exact absurd h (by simp)
    · exact h
  · intro x hx
    exact sampler_covers period hp steps ⟨0, []⟩ k (Nat.zero_le k) x hx

/-- Witness for C7: a probe with period 1/2 over the step observations
(0, 10) and (1, 20): the instant 1 * (1/2) is recorded at step time 1. -/
theorem sampler_contract_witness :
    ((runSampler (1 / 2) [((0 : ℚ), (10 : ℤ)), (1, 20)]).out.map
      Prod.fst).Pairwise (· < ·) ∧
    ((1 : ℚ), (20 : ℤ)) ∈ (runSampler (1 / 2) [((0 : ℚ), (10 : ℤ)), (1, 20)]).out := by
  have h := sampler_contract (1 / 2) (by norm_num)
    [((0 : ℚ), (10 : ℤ)), (1, 20)] 1 (by norm_num)
  refine ⟨h.1, h.2.2 ((1 : ℚ), (20 : ℤ)) ?_⟩
  rw [List.find?_cons_of_neg _ (by norm_num), List.find?_cons_of_pos _ (by norm_num)]

end Sampler

namespace Discretizer

/-- Modelled from the spec: a structural sample along one branch — its
normalized arc position and its radius. -/
structure Sample where
  pos : ℚ
  radius : ℚ
deriving DecidableEq

/-- Modelled from the spec: a compartment — owning branch index, owned
interval along the branch, and membrane surface area. -/
structure Compartment where
  branch : ℕ
  left : ℚ
  right : ℚ
  area : ℚ
deriving DecidableEq

/-- Surface area contributed between two consecutive samples (trapezoidal
lateral area of the truncated cone, up to the fixed geometric factor). -/
def segArea (a b : Sample) : ℚ := (a.radius + b.radius) * (b.pos - a.pos)

/-- Modelled from the spec: discretization of one branch — one
compartment per pair of consecutive structural samples, as selected by
`cell.compartments_on_segments()`. -/
def discretizeBranch (br : ℕ) : List Sample → List Compartment
  | [] => []
  | [_] => []
  | a :: b :: rest =>
      ⟨br, a.pos, b.pos, segArea a b⟩ :: discretizeBranch br (b :: rest)

/-- Modelled from the spec: morphological surface area of one branch,
accumulated between consecutive structural samples. -/
def branchSurface : List Sample → ℚ
  | [] => 0
  | [_] => 0
  | a :: b :: rest => segArea a b + branchSurface (b :: rest)

/-- Strict nearest-compartment-center order: smaller distance first, ties
broken by lower branch index, then by lower interval start. -/
def lexLT (d : Compartment → ℚ) (c1 c2 : Compartment) : Prop :=
  d c1 < d c2 ∨ (d c1 = d c2 ∧ (c1.branch < c2.branch ∨
    (c1.branch = c2.branch ∧ c1.left < c2.left)))

instance lexLT.dec (d : Compartment → ℚ) (c1 c2 : Compartment) :
    Decidable (lexLT d c1 c2) := by
  unfold lexLT
  infer_instance

/-- Reflexive nearest-compartment-center order. -/
def lexLE (d : Compartment → ℚ) (c1 c2 : Compartment) : Prop :=
  d c1 < d c2 ∨ (d c1 = d c2 ∧ (c1.branch < c2.branch ∨
    (c1.branch = c2.branch ∧ c1.left ≤ c2.left)))

/-- Modelled from the spec: point-to-compartment assignment — the
compartment whose center is nearest to the point, ties broken by lower
branch index and then by lower position. -/
def assign (d : Compartment → ℚ) : List Compartment → Option Compartment
  | [] => none
  | c :: rest =>
      match assign d rest with
      | none => some c
      | some b => if lexLT d b c then some b else some c

lemma lexLE_of_lexLT {d : Compartment → ℚ} {a b : Compartment}
    (h : lexLT d a b) : lexLE d a b := by
  unfold lexLT at h
  unfold lexLE
  rcases h with h | ⟨h1, h2 | ⟨h2, h3⟩⟩
  · exact Or.inl h
  · exact Or.inr ⟨h1, Or.inl h2⟩
  · exact Or.inr ⟨h1, Or.inr ⟨h2, h3.le⟩⟩

lemma lexLE_refl (d : Compartment → ℚ) (a : Compartment) : lexLE d a a :=
  Or.inr ⟨rfl, Or.inr ⟨rfl, le_refl _⟩⟩

lemma lexLE_total {d : Compartment → ℚ} {a b : Compartment}
    (h : ¬ lexLT d a b) : lexLE d b a := by
  unfold lexLT at h
  unfold lexLE
  push_neg at h
  rcases lt_trichotomy (d a) (d b) with h1 | h1 | h1
  · exact absurd h1 (not_lt.mpr h.1)
  · have h2 := h.2 h1
    refine Or.inr ⟨h1.symm, ?_⟩
    rcases Nat.lt_trichotomy a.branch b.branch with h3 | h3 | h3
    · exact absurd h3 (not_lt.mpr h2.1)
    · exact Or.inr ⟨h3.symm, h2.2 h3⟩
    · exact Or.inl h3
  · exact Or.inl h1

lemma lexLE_trans {d : Compartment → ℚ} {a b c : Compartment}
    (h1 : lexLE d a b) (h2 : lexLE d b c) : lexLE d a c := by
  unfold lexLE at h1 h2 ⊢
  rcases h1 with h1 | ⟨h1, h1b⟩ <;> rcases h2 with h2 | ⟨h2, h2b⟩
  · exact Or.inl (h1.trans h2)
  · exact Or.inl (h2 ▸ h1)
  · exact Or.inl (h1 ▸ h2)
  · refine Or.inr ⟨h1.trans h2, ?_⟩
    rcases h1b with h3 | ⟨h3, h4⟩ <;> rcases h2b with h5 | ⟨h5, h6⟩
    · exact Or.inl (h3.trans h5)
    · exact Or.inl (h5 ▸ h3)
    · exact Or.inl (h3 ▸ h5)
    · exact Or.inr ⟨h3.trans h5, h4.trans h6⟩

lemma lexLE_antisymm_key {d : Compartment → ℚ} {a b : Compartment}
    (h1 : lexLE d a b) (h2 : lexLE d b a) :
    a.branch = b.branch ∧ a.left = b.left := by
  unfold lexLE at h1 h2
  rcases h1 with h1 | ⟨h1, h1b⟩ <;> rcases h2 with h2 | ⟨h2, h2b⟩
  · exact absurd h2 (not_lt.mpr h1.le)
  · exact absurd h1 (not_lt.mpr h2.le)
  · exact absurd h2 (not_lt.mpr h1.le)
  · rcases h1b with h3 | ⟨h3, h4⟩ <;> rcases h2b with h5 | ⟨h5, h6⟩
    · exact absurd h5 (not_lt.mpr h3.le)
    · exact absurd h3 (by omega)
    · exact absurd h5 (by omega)
    · exact ⟨h3, le_antisymm h4 h6⟩

lemma assign_min (d : Compartment → ℚ) :
    ∀ comps : List Compartment,
      comps.Pairwise (fun a b => a.branch ≠ b.branch ∨ a.left ≠ b.left) →
      comps ≠ [] →
      ∃ c, assign d comps = some c ∧ c ∈ comps ∧
        (∀ x ∈ comps, lexLE d c x) ∧ (∀ x ∈ comps, lexLE d x c → x = c) := by
  intro comps
  induction comps with
  | nil => intro _ h; exact absurd rfl h
  | cons c rest ih =>
      intro hkeys _
      rw [List.pairwise_cons] at hkeys
      rcases hre : rest with _ | ⟨r, rest2⟩
      · refine ⟨c, by simp [assign], List.mem_cons_self _ _, ?_, ?_⟩
        · intro x hx
          rw [List.mem_singleton.mp hx]
          exact lexLE_refl d c
        · intro x hx _
          exact List.mem_singleton.mp hx
      · rw [← hre]
        have hne : rest ≠ [] := by rw [hre]; exact List.cons_ne_nil r rest2
        obtain ⟨b, hb, hbmem, hbmin, hbuniq⟩ := ih hkeys.2 hne
        have hassign : assign d (c :: rest) =
            if lexLT d b c then some b else some c := by
          unfold assign
          rw [hre] at hb ⊢
          rw [hb]
        by_cases hlt : lexLT d b c
        · refine ⟨b, ?_, List.mem_cons.mpr (Or.inr hbmem), ?_, ?_⟩
          · rw [hassign, if_pos hlt]
          · intro x hx
            rcases List.mem_cons.mp hx with rfl | hx2
            · exact lexLE_of_lexLT hlt
            · exact hbmin x hx2
          · intro x hx hxb
            rcases List.mem_cons.mp hx with rfl | hx2
            · have hkey := lexLE_antisymm_key (lexLE_of_lexLT hlt) hxb
              have hbad := hkeys.1 b hbmem
              exact absurd hkey (by tauto)
            · exact hbuniq x hx2 hxb
        · have hcb : lexLE d c b := lexLE_total hlt
          refine ⟨c, ?_, List.mem_cons_self _ _, ?_, ?_⟩
          · rw [hassign, if_neg hlt]
          · intro x hx
            rcases List.mem_cons.mp hx with rfl | hx2
            · exact lexLE_refl d _
            · exact lexLE_trans hcb (hbmin x hx2)
          · intro x hx hxc
            rcases List.mem_cons.mp hx with rfl | hx2
            · rfl
            · have hkey := lexLE_antisymm_key hxc (lexLE_trans hcb (hbmin x hx2))
              rcases hkeys.1 x hx2 with hbad | hbad
              · exact absurd hkey.1.symm hbad
              · exact absurd hkey.2.symm hbad

lemma area_sum (br : ℕ) : ∀ samples : List Sample,
    ((discretizeBranch br samples).map Compartment.area).sum =
      branchSurface samples := by
  intro samples
  induction samples with
  | nil => rfl
  | cons a rest ih =>
      cases rest with
      | nil => rfl
      | cons b rest2 =>
          unfold discretizeBranch branchSurface
          rw [List.map_cons, List.sum_cons, ih]

/-- C8: discretizer point assignment — assignment fails only on an empty
compartment list; a successful assignment returns a compartment of the
list that is nearest under the (distance, branch index, position)
tie-broken order and is the unique such minimum when compartments have
distinct (branch, interval start) keys; and the summed compartment
surface areas of a discretized branch equal the branch's morphological
surface area exactly. -/
theorem discretize_point_assignment (d : Compartment → ℚ)
    (comps : List Compartment) (c : Compartment) (br : ℕ)
    (samples : List Sample)
    (hkeys : comps.Pairwise (fun a b => a.branch ≠ b.branch ∨ a.left ≠ b.left)) :
    (assign d comps = none ↔ comps = []) ∧
    (assign d comps = some c →
      c ∈ comps ∧ (∀ x ∈ comps, lexLE d c x) ∧
        (∀ x ∈ comps, lexLE d x c → x = c)) ∧
    ((discretizeBranch br samples).map Compartment.area).sum =
      branchSurface samples := by
  refine ⟨?_, ?_, area_sum br samples⟩
  · constructor
    · intro h
      by_contra hne
      obtain ⟨c0, hc0, -⟩ := assign_min d comps hkeys hne
      rw [h] at hc0
      exact Option.noConfusion hc0
    · intro h
      rw [h]
      rfl
  · intro h
    have hne : comps ≠ [] := by
      intro hnil
      rw [hnil] at h
      exact Option.noConfusion h
    obtain ⟨c0, hc0, hmem, hmin, huniq⟩ := assign_min d comps hkeys hne
    rw [h] at hc0
    cases Option.some_inj.mp hc0
    exact ⟨hmem, hmin, huniq⟩

/-- Witness for C8: two unit compartments on branches 0 and 1 at equal
distance — the tie goes to branch 0 — and a two-sample branch whose
single compartment carries the whole branch surface. -/
theorem discretize_point_assignment_witness :
    lexLE (fun c => c.left) ⟨0, 0, 1, 2⟩ ⟨1, 0, 1, 2⟩ ∧
    ((discretizeBranch 0 [⟨0, 1⟩, ⟨1, 2⟩]).map Compartment.area).sum =
      branchSurface [⟨0, 1⟩, ⟨1, 2⟩] := by
  have h := discretize_point_assignment (fun c => c.left)
    [⟨0, 0, 1, 2⟩, ⟨1, 0, 1, 2⟩] ⟨0, 0, 1, 2⟩ 0 [⟨0, 1⟩, ⟨1, 2⟩]
    (by simp)
  have h2 := h.2.1 (by rfl)
  exact ⟨h2.2.1 ⟨1, 0, 1, 2⟩ (by simp), h.2.2⟩

end Discretizer
